import Mathlib

/-!
Shallow embedding of the Tic-Tac-Toe engine and AI strategies of this
repository (`src/core/engine.py`, `src/engine.py`, `src/players/*.py`),
together with proofs of the specification's claims about them.

Conventions of the embedding:
* Python `None` in a board cell becomes `Option.none`; a marker string
  ("X" / "O") becomes the inductive `Marker` (the claims fix the marker
  alphabet to exactly these two symbols).
* The 3x3 `list[list[str | None]]` board becomes a 9-field structure with
  row-major accessors; iteration `for i in range(3): for j in range(3)` is
  the row-major literal list `allCells`.
* A Python function that can raise becomes an `Option`/`Except` returning
  function (`none` models the raised exception).
* `random.choice` becomes an explicit choice-function parameter `rand`;
  the property `rand l ∈ l` for non-empty `l` models its contract.
-/

namespace TicTacToe

/-- A player marker: the two symbols "X" and "O". -/
inductive Marker where
  | X : Marker
  | O : Marker
deriving DecidableEq, Repr

/-- A board cell: `none` is an empty cell, `some m` holds marker `m`. -/
abbrev Cell := Option Marker

/-- The 3x3 board, fields in row-major order: `aj` is row 0, `bj` row 1,
`cj` row 2 (cell `(i, j)` of the Python `list[list[str | None]]`). -/
structure Board where
  a0 : Cell
  a1 : Cell
  a2 : Cell
  b0 : Cell
  b1 : Cell
  b2 : Cell
  c0 : Cell
  c1 : Cell
  c2 : Cell
deriving DecidableEq, Repr

/-- A move: 0-indexed `(row, col)` coordinates, as in the source's
`tuple[int, int]`. -/
abbrev Move := Nat × Nat

/-- Read cell `(i, j)` of the board (`board_state[i][j]`). Out-of-range
coordinates (which would raise `IndexError` in Python) return `none`;
all claims restrict to in-range coordinates. -/
def Board.get (b : Board) (i j : Nat) : Cell :=
  match i, j with
  | 0, 0 => b.a0
  | 0, 1 => b.a1
  | 0, 2 => b.a2
  | 1, 0 => b.b0
  | 1, 1 => b.b1
  | 1, 2 => b.b2
  | 2, 0 => b.c0
  | 2, 1 => b.c1
  | 2, 2 => b.c2
  | _, _ => none

/-- Write value `v` into cell `(i, j)` (`board_state[i][j] = v`).
Out-of-range coordinates leave the board unchanged; all claims restrict
to in-range coordinates. -/
def Board.set (b : Board) (i j : Nat) (v : Cell) : Board :=
  match i, j with
  | 0, 0 => { b with a0 := v }
  | 0, 1 => { b with a1 := v }
  | 0, 2 => { b with a2 := v }
  | 1, 0 => { b with b0 := v }
  | 1, 1 => { b with b1 := v }
  | 1, 2 => { b with b2 := v }
  | 2, 0 => { b with c0 := v }
  | 2, 1 => { b with c1 := v }
  | 2, 2 => { b with c2 := v }
  | _, _ => b

/-- The empty board produced by `GameEngine._new_board`. -/
def emptyBoard : Board :=
  ⟨none, none, none, none, none, none, none, none, none⟩

/-- `GameEngine.WINNING_LINE_POSITIONS`: the 8 fixed winning lines, in the
source's order (3 rows, 3 columns, 2 diagonals). -/
def WINNING_LINE_POSITIONS : List (List Move) :=
  [ [(0, 0), (0, 1), (0, 2)],
    [(1, 0), (1, 1), (1, 2)],
    [(2, 0), (2, 1), (2, 2)],
    [(0, 0), (1, 0), (2, 0)],
    [(0, 1), (1, 1), (2, 1)],
    [(0, 2), (1, 2), (2, 2)],
    [(0, 0), (1, 1), (2, 2)],
    [(0, 2), (1, 1), (2, 0)] ]

/-- One iteration step of `GameEngine.get_winner`'s loop: scan the given
lines in order; return the first line whose three values are equal and
non-`None`. -/
def scanLines (b : Board) : List (List Move) → Option Marker
  | [] => none
  | line :: rest =>
    match line.map (fun p => b.get p.1 p.2) with
    | [v1, v2, v3] =>
      if v1 = v2 ∧ v2 = v3 ∧ v1 ≠ none then
        v1
      else
        scanLines b rest
    | _ => scanLines b rest

/-- `GameEngine.get_winner` applied to a board: the marker of the first
winning line found, else `none`. -/
def get_winner (b : Board) : Option Marker :=
  scanLines b WINNING_LINE_POSITIONS

/-- The rows of the board as lists of cells, in order — the board as the
Python `list[list[str | None]]` sees it. -/
def Board.rows (b : Board) : List (List Cell) :=
  [[b.a0, b.a1, b.a2], [b.b0, b.b1, b.b2], [b.c0, b.c1, b.c2]]

/-- `GameEngine.is_board_full`: `False` as soon as some row contains
`None`, else `True`. -/
def is_board_full (b : Board) : Bool :=
  b.rows.all (fun row => !row.contains none)

/-- `GameEngine.is_valid_move`: the target cell is empty. -/
def is_valid_move (b : Board) (move : Move) : Bool :=
  b.get move.1 move.2 == none

/-- All nine cell coordinates in row-major order: the iteration
`for i in range(3): for j in range(3)`. -/
def allCells : List Move :=
  [(0, 0), (0, 1), (0, 2), (1, 0), (1, 1), (1, 2), (2, 0), (2, 1), (2, 2)]

/-- The row-major list of empty cells: the `moves` list every AI player
builds with `if board_state[i][j] is None: moves.append((i, j))`. -/
def emptyCells (b : Board) : List Move :=
  allCells.filter (fun p => b.get p.1 p.2 == none)

/-- The number of empty cells of a board (the recursion measure of the
minimax search). -/
def countEmpty (b : Board) : Nat :=
  (emptyCells b).length

/-- `check_game_status` composes winner detection and fullness:
`(is_over, winner_marker)`. -/
def check_game_status (b : Board) : Bool × Option Marker :=
  let winner_marker := get_winner b
  let is_full := is_board_full b
  ((winner_marker ≠ none : Bool) || is_full, winner_marker)

/-- A player object: display name, assigned marker, and an object identity
`pid` modelling Python reference equality (`==` on `AbstractPlayer`
instances is the default identity comparison; two distinct objects may
carry the same name and marker). -/
structure Player where
  name : String
  marker : Marker
  pid : Nat
deriving DecidableEq, Repr

/-- The engine state: the board and the two registered players, plus the
current-player pointer (`src/core/engine.py`, `GameEngine`). -/
structure GameEngine where
  board : Board
  player_x : Player
  player_o : Player
  current_player : Player
deriving DecidableEq, Repr

/-- `GameEngine.__init__`: creates an empty board, registers both players
and sets the current player to `player_x`. The `Except` layer models the
possibility of a raised exception; the source body performs no validation
and never raises, so the result is always `Except.ok`. -/
def GameEngine.init (player_x player_o : Player) : Except String GameEngine :=
  Except.ok
    { board := emptyBoard
      player_x := player_x
      player_o := player_o
      current_player := player_x }

/-- `GameEngine.switch_player`: swap the current player. -/
def GameEngine.switch_player (e : GameEngine) : GameEngine :=
  if e.current_player = e.player_x then
    { e with current_player := e.player_o }
  else
    { e with current_player := e.player_x }

/-- `GameEngine.get_current_player`. -/
def GameEngine.get_current_player (e : GameEngine) : Player :=
  e.current_player

/-- `GameEngine.make_move`: writes the current player's marker at `move`,
with no emptiness or range validation. -/
def GameEngine.make_move (e : GameEngine) (move : Move) : GameEngine :=
  { e with board := e.board.set move.1 move.2 (some e.current_player.marker) }

/-- `GameEngine.get_winner_name`: resolve a winning marker to the owning
player's name; the implicit `None` fall-through of the Python method is
the final `none`. -/
def GameEngine.get_winner_name (e : GameEngine) (winner_marker : Option Marker) :
    Option String :=
  match winner_marker with
  | none => none
  | some w =>
    if w = e.player_x.marker then some e.player_x.name
    else if w = e.player_o.marker then some e.player_o.name
    else none

/-!
Reference-semantics model for board snapshots (claim C4).  A Python board
is a heap object aliased by references; `BoardHeap` is the store of board
objects and an address is an index into it.  `src/core/engine.py`'s
`get_board_state` returns `self.board` — the live reference — while
`src/engine.py`'s `get_board_state` returns `[row[:] for row in
self.board]`, a fresh object with copied contents.
-/

/-- A store of board objects addressed by allocation index. -/
structure BoardHeap where
  objs : List Board
deriving DecidableEq, Repr

/-- Dereference a board address. -/
def BoardHeap.read (h : BoardHeap) (addr : Nat) : Board :=
  h.objs.getD addr emptyBoard

/-- In-place mutation `board[i][j] = v` through a reference. -/
def BoardHeap.writeCell (h : BoardHeap) (addr i j : Nat) (v : Cell) : BoardHeap :=
  ⟨h.objs.set addr ((h.read addr).set i j v)⟩

/-- Allocate a fresh board object, returning the new heap and address. -/
def BoardHeap.alloc (h : BoardHeap) (b : Board) : BoardHeap × Nat :=
  (⟨h.objs ++ [b]⟩, h.objs.length)

/-- An engine whose `board` attribute is a heap reference. -/
structure HeapEngine where
  heap : BoardHeap
  boardRef : Nat
deriving DecidableEq, Repr

/-- `src/core/engine.py` `GameEngine.get_board_state`: `return self.board`
— hands the caller the live board reference itself, no copy. -/
def HeapEngine.core_get_board_state (e : HeapEngine) : Nat :=
  e.boardRef

/-- `src/engine.py` `GameEngine.get_board_state`:
`return [row[:] for row in self.board]` — allocates a fresh copy of the
live board and returns a reference to the copy. -/
def HeapEngine.legacy_get_board_state (e : HeapEngine) : HeapEngine × Nat :=
  let (h, addr) := e.heap.alloc (e.heap.read e.boardRef)
  ({ e with heap := h }, addr)

/-- `src/core/engine.py` `GameEngine.get_board_copy` with `board_state =
None`: `[row.copy() for row in self.board]` — the same fresh-copy
allocation. -/
def HeapEngine.get_board_copy (e : HeapEngine) : HeapEngine × Nat :=
  let (h, addr) := e.heap.alloc (e.heap.read e.boardRef)
  ({ e with heap := h }, addr)

/-!
The strategy layer (`src/players/*.py`).  Each `_calculate_move` is a
function of the AI's own marker and the board snapshot; `random.choice`
is passed in as an explicit function `rand` (its Python contract —
returning an element of a non-empty list — is a hypothesis where needed).
-/

/-- `opponent_marker = "X" if marker == "O" else "O"` — the hard-coded
opponent-marker computation shared by the strategic and minimax players. -/
def otherMarker (m : Marker) : Marker :=
  if m = Marker.O then Marker.X else Marker.O

/-- Python `max` on a list of ints; `none` models the `ValueError` raised
on an empty list. -/
def pyMax : List Int → Option Int
  | [] => none
  | x :: xs => some (xs.foldl max x)

/-- Python `min` on a list of ints; `none` models the `ValueError` raised
on an empty list. -/
def pyMin : List Int → Option Int
  | [] => none
  | x :: xs => some (xs.foldl min x)

/-- Collect a list of possibly-failed computations; a failure (`none`,
i.e. a raised exception in the source) propagates. -/
def seqOption : List (Option Int) → Option (List Int)
  | [] => some []
  | none :: _ => none
  | some x :: rest =>
    match seqOption rest with
    | none => none
    | some xs => some (x :: xs)

/-- `RandomAIPlayer._calculate_move`: collect all empty cells and pick one
with `random.choice`. -/
def random_calculate_move (b : Board) (rand : List Move → Move) : Move :=
  rand (emptyCells b)

/-- `WinningMoveAIPlayer._find_winning_move`: scan the candidate moves in
order; return the first whose simulated placement of the AI's own marker
wins. -/
def find_winning_move (me : Marker) (moves : List Move) (b : Board) : Option Move :=
  match moves with
  | [] => none
  | move :: rest =>
    let temp_state := b.set move.1 move.2 (some me)
    if get_winner temp_state ≠ none then some move
    else find_winning_move me rest b

/-- `WinningMoveAIPlayer._calculate_move`: winning move if any, else
`random.choice` over the empty cells. -/
def winning_calculate_move (me : Marker) (b : Board) (rand : List Move → Move) : Move :=
  let moves := emptyCells b
  match find_winning_move me moves b with
  | some winning_move => winning_move
  | none => rand moves

/-- The loop of `StrategicAIPlayer._find_critical_move`, with the
`blocking_move` variable as accumulator.  Per candidate cell the win check
runs first and returns immediately; the block check runs only while
`blocking_move` is still `None` (the first block found is kept).  The
final `return blocking_move if blocking_move else None` is just
`blocking_move` (a coordinate tuple is always truthy). -/
def find_critical_loop (me : Marker) (b : Board) :
    List Move → Option Move → Option Move
  | [], blocking_move => blocking_move
  | move :: rest, blocking_move =>
    let temp_state := b.set move.1 move.2 (some me)
    if get_winner temp_state ≠ none then some move
    else
      let blocking_move' :=
        if blocking_move = none then
          if get_winner (temp_state.set move.1 move.2 (some (otherMarker me))) ≠ none then
            some move
          else none
        else blocking_move
      find_critical_loop me b rest blocking_move'

/-- `StrategicAIPlayer._find_critical_move`. -/
def find_critical_move (me : Marker) (moves : List Move) (b : Board) : Option Move :=
  find_critical_loop me b moves none

/-- `StrategicAIPlayer._calculate_move`: critical (win-or-block) move if
any, else `random.choice` over the empty cells. -/
def strategic_calculate_move (me : Marker) (b : Board) (rand : List Move → Move) : Move :=
  let moves := emptyCells b
  match find_critical_move me moves b with
  | some winning_move => winning_move
  | none => rand moves

/-- `MinimaxAIPlayer._minimax_score` for the AI whose own marker is `me`,
at the given board with `current` to move.  The recursion is bounded by
`fuel`; `none` models a raised exception (fuel exhaustion, or
`max`/`min` of an empty list — both proved unreachable for
`fuel ≥ countEmpty b`, claim C8). -/
def minimax_score (me : Marker) : Nat → Board → Marker → Option Int
  | 0, b, _ =>
    match get_winner b with
    | some winner => some (if winner = me then 10 else -10)
    | none => if is_board_full b then some 0 else none
  | fuel + 1, b, current_player_marker =>
    match get_winner b with
    | some winner => some (if winner = me then 10 else -10)
    | none =>
      if is_board_full b then some 0
      else
        match seqOption ((emptyCells b).map (fun p =>
            minimax_score me fuel (b.set p.1 p.2 (some current_player_marker))
              (otherMarker current_player_marker))) with
        | none => none
        | some scores =>
          if current_player_marker = me then pyMax scores else pyMin scores

/-- `MinimaxAIPlayer._calculate_move`:
`return moves[scores.index(max(scores))]` — the move list and score list
are built in the same row-major scan; `scores.index` is the first index of
the maximum.  Fuel 9 always suffices (claim C8).  `none` models a raised
exception (only possible on a full board, where `moves` is empty). -/
def minimax_calculate_move (me : Marker) (b : Board) : Option Move :=
  let moves := emptyCells b
  let opponent_marker := otherMarker me
  match seqOption (moves.map (fun p =>
      minimax_score me 9 (b.set p.1 p.2 (some me)) opponent_marker)) with
  | none => none
  | some scores =>
    match pyMax scores with
    | none => none
    | some mx => moves.get? (scores.indexOf mx)

/-- The one-ply score `_calculate_move` computes for a candidate cell:
the minimax score of the board with that cell filled by the player's own
marker, under the opponent's turn. -/
def one_ply_score (me : Marker) (b : Board) (p : Move) : Option Int :=
  minimax_score me 9 (b.set p.1 p.2 (some me)) (otherMarker me)

/-- Marker `m` occupies a complete winning line of the board (the
scan-order-independent "has three in a row" predicate of claim C7). -/
def wins (b : Board) (m : Marker) : Bool :=
  WINNING_LINE_POSITIONS.any (fun line => line.all (fun p => b.get p.1 p.2 == some m))

/-!
Game-play relations.  `LegalPlay` is claim C7's literal reachability:
moves place the mover's marker on an empty in-range cell and turns
strictly alternate, with no stopping condition.  `LegalPlayStop`
additionally stops play once a winning line exists.  `MinimaxGame` is
claim C1's loop: one fixed side (`me`) selects every move with
`MinimaxAIPlayer._calculate_move`, the other side moves arbitrarily, both
only on non-terminal boards; X moves first, as in `GameEngine.__init__`.
-/

/-- Boards reachable by alternating legal moves (empty in-range target
cells), X first, with no stopping condition — claim C7 as stated. -/
inductive LegalPlay : Board → Marker → Prop where
  | start : LegalPlay emptyBoard Marker.X
  | move {b : Board} {cur : Marker} (i j : Nat) :
      LegalPlay b cur → i ≤ 2 → j ≤ 2 → b.get i j = none →
      LegalPlay (b.set i j (some cur)) (otherMarker cur)

/-- Boards reachable by alternating legal moves where play stops as soon
as a winning line exists (no move is made on an already-won board). -/
inductive LegalPlayStop : Board → Marker → Prop where
  | start : LegalPlayStop emptyBoard Marker.X
  | move {b : Board} {cur : Marker} (i j : Nat) :
      LegalPlayStop b cur → get_winner b = none → i ≤ 2 → j ≤ 2 → b.get i j = none →
      LegalPlayStop (b.set i j (some cur)) (otherMarker cur)

/-- Positions of a game in which side `me` selects every one of its moves
with `MinimaxAIPlayer._calculate_move` and the opponent plays arbitrary
legal moves; strategies are invoked only on non-terminal boards, moves
are applied only to empty cells, and turns alternate starting from X on
the empty board. -/
inductive MinimaxGame (me : Marker) : Board → Marker → Prop where
  | start : MinimaxGame me emptyBoard Marker.X
  | own_move {b : Board} {p : Move} :
      MinimaxGame me b me → get_winner b = none → is_board_full b = false →
      minimax_calculate_move me b = some p →
      MinimaxGame me (b.set p.1 p.2 (some me)) (otherMarker me)
  | opp_move {b : Board} {p : Move} :
      MinimaxGame me b (otherMarker me) → get_winner b = none → is_board_full b = false →
      p ∈ emptyCells b →
      MinimaxGame me (b.set p.1 p.2 (some (otherMarker me))) me

/-!
Certificate infrastructure for claim C1.  `followStrat` checks, by finite
game-tree exploration, that a fixed explicit strategy for side `me` never
reaches a board won by the opponent, against every opponent reply.  Its
success at the empty board (checked by `decide`) yields a lower bound of
0 on `_minimax_score`'s game value there, which is the base case of the
never-loses invariant.  The heuristic itself (win, block, avoid the
double-corner trap, block forks, then a fixed priority order) is a proof
gadget, not part of the source. -/

/-- The four edge cells. -/
def edgeCells : List Move := [(0, 1), (1, 0), (1, 2), (2, 1)]

/-- Fixed fallback priority: center, corners, edges. -/
def prioCells : List Move :=
  [(1, 1), (0, 0), (0, 2), (2, 0), (2, 2), (0, 1), (1, 0), (1, 2), (2, 1)]

/-- Cell holds exactly marker `m` (fast single-match test, for the
certificate strategy only). -/
def cellIs (c : Cell) (m : Marker) : Bool :=
  match c, m with
  | some Marker.X, Marker.X => true
  | some Marker.O, Marker.O => true
  | _, _ => false

/-- Both cells hold `m`: a two-in-a-row that the remaining cell of the
line would complete. -/
def pairWin (c1 c2 : Cell) (m : Marker) : Bool := cellIs c1 m && cellIs c2 m

/-- Placing `m` on (empty) cell `p` would complete a line: checks only
the lines through `p`. -/
def winAt (m : Marker) (b : Board) : Move → Bool
  | (0, 0) => pairWin b.a1 b.a2 m || pairWin b.b0 b.c0 m || pairWin b.b1 b.c2 m
  | (0, 1) => pairWin b.a0 b.a2 m || pairWin b.b1 b.c1 m
  | (0, 2) => pairWin b.a0 b.a1 m || pairWin b.b2 b.c2 m || pairWin b.b1 b.c0 m
  | (1, 0) => pairWin b.b1 b.b2 m || pairWin b.a0 b.c0 m
  | (1, 1) =>
    pairWin b.b0 b.b2 m || pairWin b.a1 b.c1 m || pairWin b.a0 b.c2 m || pairWin b.a2 b.c0 m
  | (1, 2) => pairWin b.b0 b.b1 m || pairWin b.a2 b.c2 m
  | (2, 0) => pairWin b.c1 b.c2 m || pairWin b.a0 b.b0 m || pairWin b.b1 b.a2 m
  | (2, 1) => pairWin b.c0 b.c2 m || pairWin b.a1 b.b1 m
  | (2, 2) => pairWin b.c0 b.c1 m || pairWin b.a2 b.b2 m || pairWin b.a0 b.b1 m
  | _ => false

/-- First candidate cell that completes a line for `m`. -/
def firstWin (m : Marker) (b : Board) : List Move → Option Move
  | [] => none
  | p :: rest => if winAt m b p then some p else firstWin m b rest

/-- Number of immediate winning cells for `m` among the candidates. -/
def countThreats (m : Marker) (b : Board) (es : List Move) : Nat :=
  (es.filter (winAt m b)).length

/-- An explicit drawing strategy: win if possible, else block, else
defuse the double-opposite-corner trap with an edge, else (at the one
game stage where it matters) occupy the opponent's first fork cell, else
follow the fixed priority order. -/
def heuristicMove (me : Marker) (b : Board) : Move :=
  let es := emptyCells b
  match firstWin me b es with
  | some w => w
  | none =>
    match firstWin (otherMarker me) b es with
    | some w => w
    | none =>
      let opp := otherMarker me
      let trap : Bool :=
        cellIs b.b1 me &&
          ((cellIs b.a0 opp && cellIs b.c2 opp) || (cellIs b.a2 opp && cellIs b.c0 opp))
      if trap then
        match edgeCells.filter (fun p => b.get p.1 p.2 == none) with
        | p :: _ => p
        | [] => (0, 0)
      else
        let forks :=
          if es.length == 6 then
            es.filter (fun p =>
              let b' := b.set p.1 p.2 (some opp)
              2 ≤ countThreats opp b' (es.filter (fun q => !(q == p))))
          else []
        match forks with
        | p :: _ => p
        | [] =>
          match prioCells.filter (fun p => b.get p.1 p.2 == none) with
          | p :: _ => p
          | [] => (0, 0)

/-- Finite check that side `me`, playing `strat` at its own turns, never
reaches a board won by the opponent, whatever the opponent does. -/
def followStrat (me : Marker) (strat : Board → Move) : Nat → Board → Marker → Bool
  | 0, b, _ =>
    match get_winner b with
    | some winner => winner = me
    | none => is_board_full b
  | fuel + 1, b, current =>
    match get_winner b with
    | some winner => winner = me
    | none =>
      if is_board_full b then true
      else
        if current = me then
          let p := strat b
          decide (p ∈ emptyCells b) &&
            followStrat me strat fuel (b.set p.1 p.2 (some current)) (otherMarker current)
        else
          (emptyCells b).all (fun p =>
            followStrat me strat fuel (b.set p.1 p.2 (some current)) (otherMarker current))

/-!
Concrete inputs used by the claims' scenarios, counterexamples and
witnesses.
-/

/-- A deterministic stand-in for `random.choice` (first element). -/
def firstChoice (l : List Move) : Move := l.headD (0, 0)

/-- Spec scenario board for claim C2:
`[[None, None, "O"], ["X", None, "X"], ["X", "O", None]]`. -/
def boardC2 : Board :=
  ⟨none, none, some Marker.O, some Marker.X, none, some Marker.X,
   some Marker.X, some Marker.O, none⟩

/-- Spec scenario board for claim C5:
`[[None, "X", "X"], ["O", None, "O"], ["O", "X", None]]`. -/
def boardC5 : Board :=
  ⟨none, some Marker.X, some Marker.X, some Marker.O, none, some Marker.O,
   some Marker.O, some Marker.X, none⟩

/-- A board reachable by alternating play that continues past X's win:
X (0,0), O (1,0), X (0,1), O (1,1), X (0,2) — X completes row 0 — then
O (1,2) completes row 1.  Both markers now occupy full lines. -/
def doubleWinBoard : Board :=
  ⟨some Marker.X, some Marker.X, some Marker.X,
   some Marker.O, some Marker.O, some Marker.O,
   none, none, none⟩

/-- A board where X has just completed row 0 under stopping play:
X (0,0), O (1,0), X (0,1), O (1,1), X (0,2). -/
def xWonBoard : Board :=
  ⟨some Marker.X, some Marker.X, some Marker.X,
   some Marker.O, some Marker.O, none,
   none, none, none⟩

/-- Two concrete players sharing the marker X (distinct objects). -/
def dupPlayerA : Player := ⟨"Alice", Marker.X, 0⟩

/-- Second concrete player also carrying marker X. -/
def dupPlayerB : Player := ⟨"Bob", Marker.X, 1⟩

/-- A concrete heap engine: one live board object at address 0. -/
def heapEngine0 : HeapEngine := ⟨⟨[emptyBoard]⟩, 0⟩

/-- A concrete engine with two distinct players, fresh board, X to move. -/
def engine0 : GameEngine :=
  ⟨emptyBoard, ⟨"Alice", Marker.X, 0⟩, ⟨"Fred", Marker.O, 1⟩, ⟨"Alice", Marker.X, 0⟩⟩

/-! ### Basic board lemmas -/

theorem mem_allCells_bounds {p : Move} (h : p ∈ allCells) : p.1 ≤ 2 ∧ p.2 ≤ 2 := by
  fin_cases h <;> exact ⟨by norm_num, by norm_num⟩

theorem allCells_nodup : allCells.Nodup := by decide

theorem get_set_same (b : Board) {i j : Nat} (hi : i ≤ 2) (hj : j ≤ 2) (v : Cell) :
    (b.set i j v).get i j = v := by
  interval_cases i <;> interval_cases j <;> rfl

theorem get_set_ne (b : Board) {i j r c : Nat} (v : Cell)
    (hi : i ≤ 2) (hj : j ≤ 2) (hr : r ≤ 2) (hc : c ≤ 2) (hne : (r, c) ≠ (i, j)) :
    (b.set i j v).get r c = b.get r c := by
  interval_cases i <;> interval_cases j <;> interval_cases r <;> interval_cases c <;>
    simp_all <;> rfl

theorem mem_emptyCells {b : Board} {p : Move} :
    p ∈ emptyCells b ↔ p ∈ allCells ∧ b.get p.1 p.2 = none := by
  simp [emptyCells, List.mem_filter]

theorem countEmpty_le_nine (b : Board) : countEmpty b ≤ 9 := by
  have h := List.length_filter_le (fun p : Move => b.get p.1 p.2 == none) allCells
  simpa [countEmpty, emptyCells] using h

theorem filter_set_length (b : Board) {i j : Nat} (m : Marker)
    (hi : i ≤ 2) (hj : j ≤ 2) (hn : b.get i j = none) :
    ∀ cells : List Move, (∀ p ∈ cells, p.1 ≤ 2 ∧ p.2 ≤ 2) →
      (cells.filter (fun p => (b.set i j (some m)).get p.1 p.2 == none)).length
        + cells.count (i, j)
      = (cells.filter (fun p => b.get p.1 p.2 == none)).length
  | [], _ => by simp
  | p :: rest, hb => by
    have hrest := filter_set_length b m hi hj hn rest (fun q hq => hb q (by simp [hq]))
    by_cases hp : p = (i, j)
    · subst hp
      have h1 : (b.set i j (some m)).get i j = some m := get_set_same b hi hj _
      simp only [List.filter_cons, List.count_cons]
      simp [h1, hn, hrest.symm]
      omega
    · have hpb := hb p (by simp)
      have h1 : (b.set i j (some m)).get p.1 p.2 = b.get p.1 p.2 := by
        refine get_set_ne b _ hi hj hpb.1 hpb.2 ?_
        simpa using hp
      simp only [List.filter_cons, List.count_cons]
      by_cases h2 : b.get p.1 p.2 = none
      · simp [h1, h2, hp, hrest.symm]
        omega
      · simp [h1, h2, hp, hrest.symm]

theorem countEmpty_set (b : Board) {p : Move} (m : Marker) (hp : p ∈ emptyCells b) :
    countEmpty (b.set p.1 p.2 (some m)) + 1 = countEmpty b := by
  obtain ⟨hmem, hnone⟩ := mem_emptyCells.mp hp
  obtain ⟨h1, h2⟩ := mem_allCells_bounds hmem
  have hcount : allCells.count (p.1, p.2) = 1 := by
    have hpp : (p.1, p.2) = p := rfl
    rw [hpp]
    fin_cases hmem <;> decide
  have := filter_set_length b m h1 h2 hnone allCells (fun q hq => mem_allCells_bounds hq)
  simpa [countEmpty, emptyCells, hcount] using this

theorem emptyCells_eq_nil_iff_full {b : Board} :
    emptyCells b = [] ↔ is_board_full b = true := by
  cases b
  simp [emptyCells, allCells, Board.get, is_board_full, Board.rows,
    List.filter_eq_nil_iff]
  tauto

/-! ### Python `max`, `min`, `index` and exception-sequencing lemmas -/

theorem foldl_max_eq_or_mem : ∀ (xs : List Int) (x : Int),
    xs.foldl max x = x ∨ xs.foldl max x ∈ xs
  | [], _ => Or.inl rfl
  | y :: ys, x => by
    rcases foldl_max_eq_or_mem ys (max x y) with h | h
    · rcases max_choice x y with h' | h'
      · exact Or.inl (by rw [List.foldl_cons, h, h'])
      · refine Or.inr ?_
        rw [List.foldl_cons, h, h']
        exact List.mem_cons_self y ys
    · refine Or.inr ?_
      rw [List.foldl_cons]
      exact List.mem_cons_of_mem y h

theorem self_le_foldl_max : ∀ (xs : List Int) (x : Int), x ≤ xs.foldl max x
  | [], _ => le_refl _
  | y :: ys, x => by
    rw [List.foldl_cons]
    exact le_trans (le_max_left x y) (self_le_foldl_max ys (max x y))

theorem mem_le_foldl_max : ∀ (xs : List Int) (x v : Int), v ∈ xs → v ≤ xs.foldl max x
  | y :: ys, x, v, h => by
    rw [List.foldl_cons]
    rcases List.mem_cons.mp h with h | h
    · subst h
      exact le_trans (le_max_right x v) (self_le_foldl_max ys (max x v))
    · exact mem_le_foldl_max ys (max x y) v h

theorem pyMax_mem {l : List Int} {m : Int} (h : pyMax l = some m) : m ∈ l := by
  cases l with
  | nil => simp [pyMax] at h
  | cons x xs =>
    simp only [pyMax, Option.some_inj] at h
    rcases foldl_max_eq_or_mem xs x with h' | h' <;> simp [← h, h']

theorem le_pyMax {l : List Int} {m v : Int} (hv : v ∈ l) (h : pyMax l = some m) : v ≤ m := by
  cases l with
  | nil => simp at hv
  | cons x xs =>
    simp only [pyMax, Option.some_inj] at h
    rcases List.mem_cons.mp hv with h' | h'
    · exact h ▸ h' ▸ self_le_foldl_max xs x
    · exact h ▸ mem_le_foldl_max xs x v h'

theorem foldl_min_eq_or_mem : ∀ (xs : List Int) (x : Int),
    xs.foldl min x = x ∨ xs.foldl min x ∈ xs
  | [], _ => Or.inl rfl
  | y :: ys, x => by
    rcases foldl_min_eq_or_mem ys (min x y) with h | h
    · rcases min_choice x y with h' | h'
      · exact Or.inl (by rw [List.foldl_cons, h, h'])
      · refine Or.inr ?_
        rw [List.foldl_cons, h, h']
        exact List.mem_cons_self y ys
    · refine Or.inr ?_
      rw [List.foldl_cons]
      exact List.mem_cons_of_mem y h

theorem foldl_min_le_self : ∀ (xs : List Int) (x : Int), xs.foldl min x ≤ x
  | [], _ => le_refl _
  | y :: ys, x => by
    rw [List.foldl_cons]
    exact le_trans (foldl_min_le_self ys (min x y)) (min_le_left x y)

theorem foldl_min_le_mem : ∀ (xs : List Int) (x v : Int), v ∈ xs → xs.foldl min x ≤ v
  | y :: ys, x, v, h => by
    rw [List.foldl_cons]
    rcases List.mem_cons.mp h with h | h
    · subst h
      exact le_trans (foldl_min_le_self ys (min x v)) (min_le_right x v)
    · exact foldl_min_le_mem ys (min x y) v h

theorem pyMin_mem {l : List Int} {m : Int} (h : pyMin l = some m) : m ∈ l := by
  cases l with
  | nil => simp [pyMin] at h
  | cons x xs =>
    simp only [pyMin, Option.some_inj] at h
    rcases foldl_min_eq_or_mem xs x with h' | h' <;> simp [← h, h']

theorem pyMin_le {l : List Int} {m v : Int} (hv : v ∈ l) (h : pyMin l = some m) : m ≤ v := by
  cases l with
  | nil => simp at hv
  | cons x xs =>
    simp only [pyMin, Option.some_inj] at h
    rcases List.mem_cons.mp hv with h' | h'
    · exact h ▸ h' ▸ foldl_min_le_self xs x
    · exact h ▸ foldl_min_le_mem xs x v h'

theorem pyMax_isSome {l : List Int} (h : l ≠ []) : (pyMax l).isSome = true := by
  cases l with
  | nil => exact absurd rfl h
  | cons x xs => simp [pyMax]

theorem pyMin_isSome {l : List Int} (h : l ≠ []) : (pyMin l).isSome = true := by
  cases l with
  | nil => exact absurd rfl h
  | cons x xs => simp [pyMin]

theorem seqOption_map {α : Type} (f : α → Option Int) (g : α → Int) :
    ∀ l : List α, (∀ a ∈ l, f a = some (g a)) → seqOption (l.map f) = some (l.map g)
  | [], _ => rfl
  | a :: rest, h => by
    have ha := h a (by simp)
    have hrest := seqOption_map f g rest (fun x hx => h x (by simp [hx]))
    simp [seqOption, ha, hrest]

theorem get_indexOf_map_eq_find {α : Type} (g : α → Int) :
    ∀ (moves : List α) (mx : Int),
      moves.get? ((moves.map g).indexOf mx) = moves.find? (fun q => g q == mx)
  | [], _ => rfl
  | m :: rest, mx => by
    by_cases h : g m = mx
    · simp [List.indexOf_cons_eq _ h, List.find?_cons, h]
    · have h' : (g m == mx) = false := by simp [h]
      simp only [List.map_cons, List.indexOf_cons_ne _ h, List.find?_cons, h']
      simpa using get_indexOf_map_eq_find g rest mx

theorem find?_pred_congr {α : Type} (p q : α → Bool) :
    ∀ l : List α, (∀ a ∈ l, p a = q a) → l.find? p = l.find? q
  | [], _ => rfl
  | a :: rest, h => by
    have ha := h a (by simp)
    have hrest := find?_pred_congr p q rest (fun x hx => h x (by simp [hx]))
    simp only [List.find?_cons, ha, hrest]

theorem option_eq_some_getD {o : Option Int} (h : o.isSome = true) : o = some (o.getD 0) := by
  cases o with
  | none => simp at h
  | some v => rfl

/-! ### Minimax unfolding, totality and fuel-independence -/

theorem minimax_score_winner (me : Marker) (fuel : Nat) {b : Board} (cur : Marker)
    {w : Marker} (h : get_winner b = some w) :
    minimax_score me fuel b cur = some (if w = me then 10 else -10) := by
  cases fuel <;> simp [minimax_score, h]

theorem minimax_score_draw (me : Marker) (fuel : Nat) {b : Board} (cur : Marker)
    (h1 : get_winner b = none) (h2 : is_board_full b = true) :
    minimax_score me fuel b cur = some 0 := by
  cases fuel <;> simp [minimax_score, h1, h2]

theorem minimax_score_step (me : Marker) (fuel : Nat) {b : Board} (cur : Marker)
    (h1 : get_winner b = none) (h2 : is_board_full b = false) :
    minimax_score me (fuel + 1) b cur =
      match seqOption ((emptyCells b).map (fun p =>
          minimax_score me fuel (b.set p.1 p.2 (some cur)) (otherMarker cur))) with
      | none => none
      | some scores => if cur = me then pyMax scores else pyMin scores := by
  conv_lhs => rw [minimax_score]
  simp [h1, h2]

theorem emptyCells_ne_nil {b : Board} (h : is_board_full b = false) :
    emptyCells b ≠ [] := by
  intro hnil
  rw [emptyCells_eq_nil_iff_full.mp hnil] at h
  exact absurd h (by simp)

theorem countEmpty_child_le {b : Board} {p : Move} (m : Marker) (n : Nat)
    (hp : p ∈ emptyCells b) (h : countEmpty b ≤ n + 1) :
    countEmpty (b.set p.1 p.2 (some m)) ≤ n := by
  have := countEmpty_set b m hp
  omega

theorem minimax_score_isSome (me : Marker) :
    ∀ (fuel : Nat) (b : Board) (cur : Marker), countEmpty b ≤ fuel →
      (minimax_score me fuel b cur).isSome = true
  | fuel, b, cur, h => by
    cases hw : get_winner b with
    | some w => simp [minimax_score_winner me fuel cur hw]
    | none =>
      cases hf : is_board_full b with
      | true => simp [minimax_score_draw me fuel cur hw hf]
      | false =>
        have hne := emptyCells_ne_nil hf
        have hpos : 1 ≤ countEmpty b := by
          have : emptyCells b ≠ [] := hne
          have := List.length_pos.mpr this
          simpa [countEmpty] using this
        obtain ⟨f, rfl⟩ : ∃ f, fuel = f + 1 := ⟨fuel - 1, by omega⟩
        rw [minimax_score_step me f cur hw hf]
        have hchild : ∀ p ∈ emptyCells b,
            minimax_score me f (b.set p.1 p.2 (some cur)) (otherMarker cur) =
              some ((minimax_score me f (b.set p.1 p.2 (some cur)) (otherMarker cur)).getD 0) :=
          fun p hp => option_eq_some_getD
            (minimax_score_isSome me f _ (otherMarker cur) (countEmpty_child_le cur f hp h))
        rw [seqOption_map _ _ (emptyCells b) hchild]
        have hmapne : (emptyCells b).map (fun p =>
            (minimax_score me f (b.set p.1 p.2 (some cur)) (otherMarker cur)).getD 0) ≠ [] := by
          simpa using hne
        by_cases hcur : cur = me
        · subst hcur
          simp [pyMax_isSome hmapne]
        · simp [hcur, pyMin_isSome hmapne]

theorem minimax_score_fuel_congr (me : Marker) :
    ∀ (fuel fuel' : Nat) (b : Board) (cur : Marker),
      countEmpty b ≤ fuel → countEmpty b ≤ fuel' →
      minimax_score me fuel b cur = minimax_score me fuel' b cur
  | fuel, fuel', b, cur, h, h' => by
    cases hw : get_winner b with
    | some w => rw [minimax_score_winner me fuel cur hw, minimax_score_winner me fuel' cur hw]
    | none =>
      cases hf : is_board_full b with
      | true => rw [minimax_score_draw me fuel cur hw hf, minimax_score_draw me fuel' cur hw hf]
      | false =>
        have hne := emptyCells_ne_nil hf
        have hpos : 1 ≤ countEmpty b := by
          have := List.length_pos.mpr hne
          simpa [countEmpty] using this
        obtain ⟨f, rfl⟩ : ∃ f, fuel = f + 1 := ⟨fuel - 1, by omega⟩
        obtain ⟨f2, rfl⟩ : ∃ f2, fuel' = f2 + 1 := ⟨fuel' - 1, by omega⟩
        rw [minimax_score_step me f cur hw hf, minimax_score_step me f2 cur hw hf]
        have hmap : (emptyCells b).map (fun p =>
              minimax_score me f (b.set p.1 p.2 (some cur)) (otherMarker cur)) =
            (emptyCells b).map (fun p =>
              minimax_score me f2 (b.set p.1 p.2 (some cur)) (otherMarker cur)) := by
          refine List.map_congr_left (fun p hp => ?_)
          exact minimax_score_fuel_congr me f f2 _ (otherMarker cur)
            (countEmpty_child_le cur f hp h) (countEmpty_child_le cur f2 hp h')
        rw [hmap]

/-! ### Soundness of the certificate strategy check -/

theorem followStrat_winner_eq {me : Marker} {strat : Board → Move} {fuel : Nat}
    {b : Board} {cur : Marker} {w : Marker} (h : get_winner b = some w)
    (hfs : followStrat me strat fuel b cur = true) : w = me := by
  cases fuel <;> rw [followStrat] at hfs <;> simp [h] at hfs <;> exact hfs

theorem followStrat_step (me : Marker) (strat : Board → Move) (fuel : Nat)
    {b : Board} (cur : Marker)
    (h1 : get_winner b = none) (h2 : is_board_full b = false) :
    followStrat me strat (fuel + 1) b cur =
      if cur = me then
        decide (strat b ∈ emptyCells b) &&
          followStrat me strat fuel (b.set (strat b).1 (strat b).2 (some cur)) (otherMarker cur)
      else
        (emptyCells b).all (fun p =>
          followStrat me strat fuel (b.set p.1 p.2 (some cur)) (otherMarker cur)) := by
  conv_lhs => rw [followStrat]
  simp [h1, h2]

theorem followStrat_score_nonneg (me : Marker) (strat : Board → Move) :
    ∀ (fuel : Nat) (b : Board) (cur : Marker), countEmpty b ≤ fuel →
      followStrat me strat fuel b cur = true →
      ∃ v, minimax_score me fuel b cur = some v ∧ 0 ≤ v
  | fuel, b, cur, hfuel, hfs => by
    cases hw : get_winner b with
    | some w =>
      have hwme := followStrat_winner_eq hw hfs
      refine ⟨10, ?_, by norm_num⟩
      rw [minimax_score_winner me fuel cur hw]
      simp [hwme]
    | none =>
      cases hf : is_board_full b with
      | true => exact ⟨0, minimax_score_draw me fuel cur hw hf, le_refl 0⟩
      | false =>
        have hne := emptyCells_ne_nil hf
        have hpos : 1 ≤ countEmpty b := by
          have := List.length_pos.mpr hne
          simpa [countEmpty] using this
        obtain ⟨f, rfl⟩ : ∃ f, fuel = f + 1 := ⟨fuel - 1, by omega⟩
        have hchild : ∀ p ∈ emptyCells b,
            minimax_score me f (b.set p.1 p.2 (some cur)) (otherMarker cur) =
              some ((minimax_score me f (b.set p.1 p.2 (some cur)) (otherMarker cur)).getD 0) :=
          fun p hp => option_eq_some_getD
            (minimax_score_isSome me f _ (otherMarker cur) (countEmpty_child_le cur f hp hfuel))
        rw [minimax_score_step me f cur hw hf, seqOption_map _ _ (emptyCells b) hchild]
        rw [followStrat_step me strat f cur hw hf] at hfs
        have hmapne : (emptyCells b).map (fun p =>
            (minimax_score me f (b.set p.1 p.2 (some cur)) (otherMarker cur)).getD 0) ≠ [] := by
          simpa using hne
        by_cases hcur : cur = me
        · subst hcur
          simp only [if_true, eq_self_iff_true, Bool.and_eq_true, decide_eq_true_eq] at hfs
          obtain ⟨hmem, hrec⟩ := hfs
          obtain ⟨v, hv, hv0⟩ := followStrat_score_nonneg cur strat f _ (otherMarker cur)
            (countEmpty_child_le cur f hmem hfuel) hrec
          have hvmem : v ∈ (emptyCells b).map (fun p =>
              (minimax_score cur f (b.set p.1 p.2 (some cur)) (otherMarker cur)).getD 0) :=
            List.mem_map.mpr ⟨strat b, hmem, by simp [hv]⟩
          obtain ⟨mx, hmx⟩ := Option.isSome_iff_exists.mp (pyMax_isSome hmapne)
          refine ⟨mx, by simp [hmx], le_trans hv0 (le_pyMax hvmem hmx)⟩
        · simp only [if_neg hcur, List.all_eq_true] at hfs
          obtain ⟨mn, hmn⟩ := Option.isSome_iff_exists.mp (pyMin_isSome hmapne)
          refine ⟨mn, by simp [hmn, hcur], ?_⟩
          have hmnmem := pyMin_mem hmn
          obtain ⟨q, hq, hgq⟩ := List.mem_map.mp hmnmem
          obtain ⟨v, hv, hv0⟩ := followStrat_score_nonneg me strat f _ (otherMarker cur)
            (countEmpty_child_le cur f hq hfuel) (hfs q hq)
          have : v = mn := by rw [hv] at hgq; simpa using hgq
          omega

theorem otherMarker_ne (m : Marker) : otherMarker m ≠ m := by
  cases m <;> decide

set_option maxHeartbeats 16000000 in
theorem followStrat_empty_X :
    followStrat Marker.X (heuristicMove Marker.X) 9 emptyBoard Marker.X = true := by
  decide

set_option maxHeartbeats 16000000 in
theorem followStrat_empty_O :
    followStrat Marker.O (heuristicMove Marker.O) 9 emptyBoard Marker.X = true := by
  decide

/-! ### The minimax move choice: membership and optimality -/

theorem minimax_calculate_move_mem (me : Marker) {b : Board} (hne : emptyCells b ≠ []) :
    ∃ p, minimax_calculate_move me b = some p ∧ p ∈ emptyCells b := by
  have h9 := countEmpty_le_nine b
  have hchild9 : ∀ p ∈ emptyCells b,
      minimax_score me 9 (b.set p.1 p.2 (some me)) (otherMarker me) =
        some ((minimax_score me 9 (b.set p.1 p.2 (some me)) (otherMarker me)).getD 0) :=
    fun p hp => option_eq_some_getD (minimax_score_isSome me 9 _ (otherMarker me)
      (le_trans (countEmpty_child_le me 8 hp (by omega)) (by omega)))
  have hmapne : (emptyCells b).map (fun p =>
      (minimax_score me 9 (b.set p.1 p.2 (some me)) (otherMarker me)).getD 0) ≠ [] := by
    simpa using hne
  obtain ⟨mx, hmx⟩ := Option.isSome_iff_exists.mp (pyMax_isSome hmapne)
  have hfind := get_indexOf_map_eq_find
    (fun p => (minimax_score me 9 (b.set p.1 p.2 (some me)) (otherMarker me)).getD 0)
    (emptyCells b) mx
  have hmxmem := pyMax_mem hmx
  obtain ⟨q0, hq0, hgq0⟩ := List.mem_map.mp hmxmem
  have hfindsome : ((emptyCells b).find? (fun p =>
      (minimax_score me 9 (b.set p.1 p.2 (some me)) (otherMarker me)).getD 0 == mx)).isSome :=
    List.find?_isSome.mpr ⟨q0, hq0, by simp [hgq0]⟩
  obtain ⟨p, hp⟩ := Option.isSome_iff_exists.mp hfindsome
  refine ⟨p, ?_, List.mem_of_find?_eq_some hp⟩
  simp only [minimax_calculate_move, seqOption_map _ _ (emptyCells b) hchild9, hmx]
  rw [hfind, hp]

theorem minimax_calculate_move_spec (me : Marker) {b : Board}
    (h1 : get_winner b = none) (h2 : is_board_full b = false) :
    ∃ p, minimax_calculate_move me b = some p ∧ p ∈ emptyCells b ∧
      minimax_score me 9 (b.set p.1 p.2 (some me)) (otherMarker me) =
        minimax_score me 9 b me := by
  have hne := emptyCells_ne_nil h2
  have h9 := countEmpty_le_nine b
  have hchild9 : ∀ p ∈ emptyCells b,
      minimax_score me 9 (b.set p.1 p.2 (some me)) (otherMarker me) =
        some ((minimax_score me 9 (b.set p.1 p.2 (some me)) (otherMarker me)).getD 0) :=
    fun p hp => option_eq_some_getD (minimax_score_isSome me 9 _ (otherMarker me)
      (le_trans (countEmpty_child_le me 8 hp (by omega)) (by omega)))
  have hmapne : (emptyCells b).map (fun p =>
      (minimax_score me 9 (b.set p.1 p.2 (some me)) (otherMarker me)).getD 0) ≠ [] := by
    simpa using hne
  obtain ⟨mx, hmx⟩ := Option.isSome_iff_exists.mp (pyMax_isSome hmapne)
  have hfind := get_indexOf_map_eq_find
    (fun p => (minimax_score me 9 (b.set p.1 p.2 (some me)) (otherMarker me)).getD 0)
    (emptyCells b) mx
  have hmxmem := pyMax_mem hmx
  obtain ⟨q0, hq0, hgq0⟩ := List.mem_map.mp hmxmem
  have hfindsome : ((emptyCells b).find? (fun p =>
      (minimax_score me 9 (b.set p.1 p.2 (some me)) (otherMarker me)).getD 0 == mx)).isSome :=
    List.find?_isSome.mpr ⟨q0, hq0, by simp [hgq0]⟩
  obtain ⟨p, hp⟩ := Option.isSome_iff_exists.mp hfindsome
  have hpmem := List.mem_of_find?_eq_some hp
  have hpval : (minimax_score me 9 (b.set p.1 p.2 (some me)) (otherMarker me)).getD 0 = mx := by
    have := List.find?_some hp
    simpa using this
  have hparent : minimax_score me 9 b me = some mx := by
    rw [(by norm_num : (9 : Nat) = 8 + 1), minimax_score_step me 8 me h1 h2]
    have hmap89 : (emptyCells b).map (fun q =>
          minimax_score me 8 (b.set q.1 q.2 (some me)) (otherMarker me)) =
        (emptyCells b).map (fun q =>
          minimax_score me 9 (b.set q.1 q.2 (some me)) (otherMarker me)) := by
      refine List.map_congr_left (fun q hq => ?_)
      exact minimax_score_fuel_congr me 8 9 _ (otherMarker me)
        (countEmpty_child_le me 8 hq (by omega))
        (le_trans (countEmpty_child_le me 8 hq (by omega)) (by omega))
    rw [hmap89, seqOption_map _ _ (emptyCells b) hchild9]
    simp [hmx]
  refine ⟨p, ?_, hpmem, ?_⟩
  · simp only [minimax_calculate_move, seqOption_map _ _ (emptyCells b) hchild9, hmx]
    rw [hfind, hp]
  · rw [hparent, hchild9 p hpmem, hpval]

/-! ### The never-loses invariant for claim C1 -/

theorem minimaxGame_score_nonneg {me : Marker} {b : Board} {cur : Marker}
    (h : MinimaxGame me b cur) :
    ∃ v, minimax_score me 9 b cur = some v ∧ 0 ≤ v := by
  induction h with
  | start =>
    cases me with
    | X =>
      exact followStrat_score_nonneg Marker.X (heuristicMove Marker.X) 9 emptyBoard
        Marker.X (by decide) followStrat_empty_X
    | O =>
      exact followStrat_score_nonneg Marker.O (heuristicMove Marker.O) 9 emptyBoard
        Marker.X (by decide) followStrat_empty_O
  | own_move hgame hw hf hcalc ih =>
    obtain ⟨v, hv, hv0⟩ := ih
    obtain ⟨p', hp', hmem, hscore⟩ := minimax_calculate_move_spec _ hw hf
    rw [hcalc] at hp'
    obtain rfl := Option.some_inj.mp hp'
    exact ⟨v, hscore.trans hv, hv0⟩
  | opp_move hgame hw hf hpmem ih =>
    rename_i bb pp
    obtain ⟨v, hv, hv0⟩ := ih
    have h9 := countEmpty_le_nine bb
    have hchild8 : ∀ q ∈ emptyCells bb,
        minimax_score me 8 (bb.set q.1 q.2 (some (otherMarker me))) me =
          some ((minimax_score me 8 (bb.set q.1 q.2 (some (otherMarker me))) me).getD 0) :=
      fun q hq => option_eq_some_getD (minimax_score_isSome me 8 _ me
        (countEmpty_child_le (otherMarker me) 8 hq (by omega)))
    rw [(by norm_num : (9 : Nat) = 8 + 1),
      minimax_score_step me 8 (otherMarker me) hw hf] at hv
    have hother : otherMarker (otherMarker me) = me := by cases me <;> decide
    rw [hother] at hv
    simp only [seqOption_map _ _ (emptyCells bb) hchild8] at hv
    rw [if_neg (otherMarker_ne me)] at hv
    have hgp : (minimax_score me 8 (bb.set pp.1 pp.2 (some (otherMarker me))) me).getD 0 ∈
        (emptyCells bb).map (fun q =>
          (minimax_score me 8 (bb.set q.1 q.2 (some (otherMarker me))) me).getD 0) :=
      List.mem_map.mpr ⟨pp, hpmem, rfl⟩
    have hle := pyMin_le hgp hv
    refine ⟨(minimax_score me 8 (bb.set pp.1 pp.2 (some (otherMarker me))) me).getD 0, ?_, by omega⟩
    rw [minimax_score_fuel_congr me 9 8 _ me
      (le_trans (countEmpty_child_le (otherMarker me) 8 hpmem (by omega)) (by omega))
      (countEmpty_child_le (otherMarker me) 8 hpmem (by omega))]
    exact hchild8 pp hpmem

/-! ### Claim C1: the minimax side never loses -/

/-- C1: in every game played to completion under the legal-play loop
(strategies invoked only on non-terminal boards, moves applied only to
empty cells, turns alternating from X), if side `me` selects every one of
its moves with `MinimaxAIPlayer._calculate_move`, then no reachable board
— the final board included — carries a win for the opposing marker: the
winner is `me` or there is none (a draw when the board is full). -/
theorem claim_C1_minimax_never_loses {me : Marker} {b : Board} {cur : Marker}
    (h : MinimaxGame me b cur) :
    get_winner b = none ∨ get_winner b = some me := by
  obtain ⟨v, hv, hv0⟩ := minimaxGame_score_nonneg h
  cases hw : get_winner b with
  | none => exact Or.inl rfl
  | some w =>
    refine Or.inr ?_
    rw [minimax_score_winner me 9 cur hw] at hv
    by_cases hwme : w = me
    · rw [hwme]
    · rw [if_neg hwme] at hv
      obtain rfl : (-10 : Int) = v := Option.some_inj.mp hv
      omega

/-- Witness for C1 at the concrete start position. -/
theorem claim_C1_witness :
    get_winner emptyBoard = none ∨ get_winner emptyBoard = some Marker.X :=
  claim_C1_minimax_never_loses MinimaxGame.start

/-! ### Claim C8: minimax terminates and the error branch is unreachable -/

/-- C8: `_minimax_score` terminates — the recursion is bounded by the
number of empty cells, since each recursive call fills one empty cell and
strictly decreases it — and it never hits an error branch: with enough
fuel the result is always `some`, and on every non-full board the list of
candidate cells (hence of child scores) is non-empty. -/
theorem claim_C8_minimax_terminates (me : Marker) (fuel : Nat) (b : Board) (cur : Marker)
    (h : countEmpty b ≤ fuel) :
    (minimax_score me fuel b cur).isSome = true ∧
      (is_board_full b = false → emptyCells b ≠ []) ∧
      (∀ p ∈ emptyCells b, countEmpty (b.set p.1 p.2 (some cur)) + 1 = countEmpty b) :=
  ⟨minimax_score_isSome me fuel b cur h, fun hf => emptyCells_ne_nil hf,
   fun _ hp => countEmpty_set b cur hp⟩

/-- Witness for C8 at the empty board with fuel 9. -/
theorem claim_C8_witness :
    countEmpty emptyBoard ≤ 9 ∧ (minimax_score Marker.X 9 emptyBoard Marker.X).isSome = true :=
  ⟨by decide, (claim_C8_minimax_terminates Marker.X 9 emptyBoard Marker.X (by decide)).1⟩

/-! ### Claim C2: the strategic player on the spec's scenario-2 board -/

/-- C2 counterexample: `StrategicAIPlayer._calculate_move` as "O" on
`[[None,None,"O"],["X",None,"X"],["X","O",None]]` returns `(0, 0)` — the
first blocking move in row-major order (X would win column 0 at `(0,0)`) —
not `(1, 1)` as the claim states. -/
theorem claim_C2_counterexample :
    strategic_calculate_move Marker.O boardC2 firstChoice = (0, 0) ∧
      ((0, 0) : Move) ≠ (1, 1) := by
  exact ⟨rfl, by decide⟩

/-- C2 amended: on that board the strategic player returns `(0, 0)` (no
winning move for O exists; `(0,0)` is the first cell whose block check
fires, and a recorded block is never overwritten), for every choice
function, since the random fallback is not reached. -/
theorem claim_C2_amended (rand : List Move → Move) :
    strategic_calculate_move Marker.O boardC2 rand = (0, 0) := rfl

/-! ### Claim C3: duplicate markers do not make the constructor fail -/

/-- C3 counterexample: two players sharing marker "X"; `GameEngine.__init__`
succeeds anyway — there is no marker check and no `ConfigurationError`
anywhere in the code. -/
theorem claim_C3_counterexample :
    dupPlayerA.marker = dupPlayerB.marker ∧
      GameEngine.init dupPlayerA dupPlayerB =
        Except.ok ⟨emptyBoard, dupPlayerA, dupPlayerB, dupPlayerA⟩ :=
  ⟨rfl, rfl⟩

/-- C3 amended: constructing the game never fails: `GameEngine.__init__`
performs no validation whatsoever (markers equal or not), registers the
two players and sets the current player to `player_x`. -/
theorem claim_C3_amended (px po : Player) :
    GameEngine.init px po = Except.ok ⟨emptyBoard, px, po, px⟩ := rfl

/-! ### Claim C9: the frame property of make_move -/

/-- C9: for every engine state and in-range move, `make_move` writes the
current player's marker at the target cell — unconditionally, even when
the cell is already occupied (no emptiness hypothesis is needed) — and
leaves every other cell, both registered players and the current-player
pointer unchanged. -/
theorem claim_C9_make_move_frame (e : GameEngine) (move : Move)
    (h1 : move.1 ≤ 2) (h2 : move.2 ≤ 2) :
    (e.make_move move).board.get move.1 move.2 = some e.current_player.marker ∧
      (∀ r c : Nat, r ≤ 2 → c ≤ 2 → (r, c) ≠ move →
        (e.make_move move).board.get r c = e.board.get r c) ∧
      (e.make_move move).player_x = e.player_x ∧
      (e.make_move move).player_o = e.player_o ∧
      (e.make_move move).current_player = e.current_player := by
  refine ⟨get_set_same e.board h1 h2 _, fun r c hr hc hne => ?_, rfl, rfl, rfl⟩
  exact get_set_ne e.board _ h1 h2 hr hc (by simpa using hne)

/-- Witness for C9: a concrete engine, cell (1, 2), occupied or not. -/
theorem claim_C9_witness :
    ((1, 2) : Move).1 ≤ 2 ∧ ((1, 2) : Move).2 ≤ 2 ∧
      (engine0.make_move (1, 2)).current_player = engine0.current_player :=
  ⟨by decide, by decide,
   (claim_C9_make_move_frame engine0 (1, 2) (by decide) (by decide)).2.2.2.2⟩

/-! ### Claim C10: the current-player pointer -/

/-- C10: the current player starts as the X player; every operation other
than `switch_player` leaves the pointer unchanged; and, whenever the two
registered players are distinct and the pointer is one of them,
`switch_player` maps each registered player to the other and is an
involution. -/
theorem claim_C10_current_player (e : GameEngine)
    (hd : e.player_x ≠ e.player_o)
    (hc : e.current_player = e.player_x ∨ e.current_player = e.player_o) :
    (∀ px po g, GameEngine.init px po = Except.ok g →
        g.current_player = g.player_x ∧ g.player_x = px ∧ g.player_o = po) ∧
      (∀ m, (e.make_move m).current_player = e.current_player) ∧
      e.get_current_player = e.current_player ∧
      (e.current_player = e.player_x → e.switch_player.current_player = e.player_o) ∧
      (e.current_player = e.player_o → e.switch_player.current_player = e.player_x) ∧
      (e.switch_player.current_player = e.player_x ∨
        e.switch_player.current_player = e.player_o) ∧
      e.switch_player.switch_player.current_player = e.current_player := by
  refine ⟨?_, fun m => rfl, rfl, ?_, ?_, ?_, ?_⟩
  · intro px po g hg
    injection hg with hg
    subst hg
    exact ⟨rfl, rfl, rfl⟩
  · intro h
    simp [GameEngine.switch_player, h]
  · intro h
    have hne : ¬ e.current_player = e.player_x := by
      rw [h]
      exact fun hh => hd hh.symm
    simp [GameEngine.switch_player, hne]
  · rcases hc with h | h
    · right
      simp [GameEngine.switch_player, h]
    · left
      have hne : ¬ e.current_player = e.player_x := by
        rw [h]
        exact fun hh => hd hh.symm
      simp [GameEngine.switch_player, hne]
  · rcases hc with h | h
    · have hne : ¬ e.player_o = e.player_x := fun hh => hd hh.symm
      simp [GameEngine.switch_player, h, hne]
    · have hne : ¬ e.current_player = e.player_x := by
        rw [h]
        exact fun hh => hd hh.symm
      simp [GameEngine.switch_player, hne]
      exact h.symm

/-- Witness for C10 at a concrete engine with distinct players. -/
theorem claim_C10_witness :
    engine0.player_x ≠ engine0.player_o ∧
      (engine0.current_player = engine0.player_x ∨
        engine0.current_player = engine0.player_o) ∧
      engine0.switch_player.switch_player.current_player = engine0.current_player :=
  ⟨by decide, Or.inl rfl,
   (claim_C10_current_player engine0 (by decide) (Or.inl rfl)).2.2.2.2.2.2⟩

/-! ### Claim C5: first-argmax tie-breaking of the minimax move choice -/

/-- C5: on every non-terminal board, `_calculate_move` returns exactly the
first empty cell in row-major order whose one-ply minimax score equals
the maximum over all empty cells (`moves[scores.index(max(scores))]` is
the `find?` of the first score-maximal cell, and all one-ply scores are
defined); in particular, as "O" on
`[[None,"X","X"],["O",None,"O"],["O","X",None]]` it returns `(0, 0)`. -/
theorem claim_C5_first_argmax :
    (∀ (me : Marker) (b : Board), get_winner b = none → is_board_full b = false →
      ∃ mx,
        pyMax ((emptyCells b).map (fun p => (one_ply_score me b p).getD 0)) = some mx ∧
        minimax_calculate_move me b =
          (emptyCells b).find? (fun p => (one_ply_score me b p).getD 0 == mx) ∧
        ∀ p ∈ emptyCells b,
          one_ply_score me b p = some ((one_ply_score me b p).getD 0)) ∧
    minimax_calculate_move Marker.O boardC5 = some (0, 0) := by
  constructor
  · intro me b h1 h2
    have hne := emptyCells_ne_nil h2
    have h9 := countEmpty_le_nine b
    have hchild9 : ∀ p ∈ emptyCells b,
        minimax_score me 9 (b.set p.1 p.2 (some me)) (otherMarker me) =
          some ((minimax_score me 9 (b.set p.1 p.2 (some me)) (otherMarker me)).getD 0) :=
      fun p hp => option_eq_some_getD (minimax_score_isSome me 9 _ (otherMarker me)
        (le_trans (countEmpty_child_le me 8 hp (by omega)) (by omega)))
    have hmapne : (emptyCells b).map (fun p =>
        (minimax_score me 9 (b.set p.1 p.2 (some me)) (otherMarker me)).getD 0) ≠ [] := by
      simpa using hne
    obtain ⟨mx, hmx⟩ := Option.isSome_iff_exists.mp (pyMax_isSome hmapne)
    refine ⟨mx, ?_, ?_, ?_⟩
    · simpa [one_ply_score] using hmx
    · simp only [one_ply_score]
      simp only [minimax_calculate_move, seqOption_map _ _ (emptyCells b) hchild9, hmx]
      exact get_indexOf_map_eq_find
        (fun p => (minimax_score me 9 (b.set p.1 p.2 (some me)) (otherMarker me)).getD 0)
        (emptyCells b) mx
    · simpa [one_ply_score] using hchild9
  · decide

/-- Witness for C5 at the scenario board. -/
theorem claim_C5_witness :
    get_winner boardC5 = none ∧ is_board_full boardC5 = false ∧
      ∃ mx,
        pyMax ((emptyCells boardC5).map
          (fun p => (one_ply_score Marker.O boardC5 p).getD 0)) = some mx ∧
        minimax_calculate_move Marker.O boardC5 =
          (emptyCells boardC5).find?
            (fun p => (one_ply_score Marker.O boardC5 p).getD 0 == mx) ∧
        ∀ p ∈ emptyCells boardC5,
          one_ply_score Marker.O boardC5 p =
            some ((one_ply_score Marker.O boardC5 p).getD 0) :=
  ⟨by decide, by decide, claim_C5_first_argmax.1 Marker.O boardC5 (by decide) (by decide)⟩

/-! ### Claim C6: every strategy returns a legal move -/

theorem find_winning_move_mem (me : Marker) (b : Board) :
    ∀ (moves : List Move) (w : Move), find_winning_move me moves b = some w → w ∈ moves
  | [], w, h => by simp [find_winning_move] at h
  | move :: rest, w, h => by
    by_cases hw : get_winner (b.set move.1 move.2 (some me)) ≠ none
    · simp only [find_winning_move, if_pos hw, Option.some_inj] at h
      simp [h]
    · simp only [find_winning_move, if_neg hw] at h
      exact List.mem_cons_of_mem move (find_winning_move_mem me b rest w h)

theorem find_critical_loop_mem (me : Marker) (b : Board) :
    ∀ (moves : List Move) (acc : Option Move) (w : Move),
      find_critical_loop me b moves acc = some w → w ∈ moves ∨ acc = some w
  | [], acc, w, h => by
    simp only [find_critical_loop] at h
    exact Or.inr h
  | move :: rest, acc, w, h => by
    by_cases hw : get_winner (b.set move.1 move.2 (some me)) ≠ none
    · simp only [find_critical_loop, if_pos hw, Option.some_inj] at h
      simp [h]
    · simp only [find_critical_loop, if_neg hw] at h
      rcases find_critical_loop_mem me b rest _ w h with hm | hacc
      · exact Or.inl (List.mem_cons_of_mem move hm)
      · by_cases hb : acc = none
        · subst hb
          simp only [if_pos rfl] at hacc
          by_cases hblk : get_winner ((b.set move.1 move.2 (some me)).set move.1 move.2
              (some (otherMarker me))) ≠ none
          · rw [if_pos hblk] at hacc
            exact Or.inl (by simp [Option.some_inj.mp hacc])
          · rw [if_neg hblk] at hacc
            exact absurd hacc (by simp)
        · rw [if_neg hb] at hacc
          exact Or.inr hacc

/-- C6: on every board with at least one empty cell, the move returned by
each strategy's `_calculate_move` — random, winning-move, strategic, and
minimax — is one of the board's empty cells in row-major range; and every
empty cell is an in-range coordinate at which `is_valid_move` holds. -/
theorem claim_C6_strategy_moves_valid (me : Marker) (b : Board)
    (rand : List Move → Move)
    (hfull : is_board_full b = false)
    (hrand : ∀ l : List Move, l ≠ [] → rand l ∈ l) :
    random_calculate_move b rand ∈ emptyCells b ∧
      winning_calculate_move me b rand ∈ emptyCells b ∧
      strategic_calculate_move me b rand ∈ emptyCells b ∧
      (∃ p, minimax_calculate_move me b = some p ∧ p ∈ emptyCells b) ∧
      ∀ p ∈ emptyCells b, p.1 ≤ 2 ∧ p.2 ≤ 2 ∧ is_valid_move b p = true := by
  have hne := emptyCells_ne_nil hfull
  refine ⟨hrand _ hne, ?_, ?_, minimax_calculate_move_mem me hne, ?_⟩
  · cases hfw : find_winning_move me (emptyCells b) b with
    | none => simpa [winning_calculate_move, hfw] using hrand _ hne
    | some w =>
      have := find_winning_move_mem me b (emptyCells b) w hfw
      simpa [winning_calculate_move, hfw] using this
  · cases hfc : find_critical_move me (emptyCells b) b with
    | none => simpa [strategic_calculate_move, hfc] using hrand _ hne
    | some w =>
      rcases find_critical_loop_mem me b (emptyCells b) none w hfc with hm | habs
      · simpa [strategic_calculate_move, hfc] using hm
      · exact absurd habs (by simp)
  · intro p hp
    obtain ⟨hmem, hnone⟩ := mem_emptyCells.mp hp
    obtain ⟨hb1, hb2⟩ := mem_allCells_bounds hmem
    exact ⟨hb1, hb2, by simp [is_valid_move, hnone]⟩

theorem firstChoice_mem : ∀ l : List Move, l ≠ [] → firstChoice l ∈ l
  | [], h => absurd rfl h
  | a :: t, _ => by simp [firstChoice]

/-- Witness for C6 on the empty board with a deterministic choice. -/
theorem claim_C6_witness :
    is_board_full emptyBoard = false ∧
      random_calculate_move emptyBoard firstChoice ∈ emptyCells emptyBoard :=
  ⟨by decide,
   (claim_C6_strategy_moves_valid Marker.X emptyBoard firstChoice (by decide)
      firstChoice_mem).1⟩

/-! ### Claim C4: board snapshots and aliasing -/

theorem getD_set_append : ∀ (objs : List Board) (bref : Nat), bref < objs.length →
    ∀ x y : Board,
      ((objs ++ [x]).set objs.length y).getD bref emptyBoard = objs.getD bref emptyBoard
  | [], _, h, _, _ => by simp at h
  | o :: rest, 0, _, x, y => by simp
  | o :: rest, bref + 1, h, x, y => by
    have ht := getD_set_append rest bref (by simpa using h) x y
    simpa using ht

/-- C4 counterexample: `src/core/engine.py`'s `get_board_state` returns the
live board object itself; mutating a cell of the returned snapshot changes
what a subsequent `get_board_state` (no intervening `make_move`) sees. -/
theorem claim_C4_counterexample :
    (heapEngine0.heap.writeCell heapEngine0.core_get_board_state 0 0 (some Marker.X)).read
        heapEngine0.boardRef
      ≠ heapEngine0.heap.read heapEngine0.boardRef := by decide

/-- C4 amended: the core engine's `get_board_state` returns the live board
reference, so the snapshot-independence property fails for it; the
property does hold for the fresh copies made by the core engine's
`get_board_copy` and by the legacy `src/engine.py` `get_board_state`:
mutating any cell of those copies leaves the live board unchanged. -/
theorem claim_C4_amended (e : HeapEngine) (i j : Nat) (v : Cell)
    (h : e.boardRef < e.heap.objs.length) :
    e.core_get_board_state = e.boardRef ∧
      (e.legacy_get_board_state.1.heap.writeCell e.legacy_get_board_state.2 i j v).read
          e.legacy_get_board_state.1.boardRef
        = e.heap.read e.boardRef ∧
      (e.get_board_copy.1.heap.writeCell e.get_board_copy.2 i j v).read
          e.get_board_copy.1.boardRef
        = e.heap.read e.boardRef := by
  refine ⟨rfl, ?_, ?_⟩ <;>
  · simp only [HeapEngine.legacy_get_board_state, HeapEngine.get_board_copy,
      BoardHeap.alloc, BoardHeap.writeCell, BoardHeap.read]
    exact getD_set_append e.heap.objs e.boardRef h _ _

/-- Witness for C4 (amended) at a concrete one-object heap. -/
theorem claim_C4_witness :
    heapEngine0.boardRef < heapEngine0.heap.objs.length ∧
      heapEngine0.core_get_board_state = heapEngine0.boardRef :=
  ⟨by decide, (claim_C4_amended heapEngine0 0 0 (some Marker.X) (by decide)).1⟩

/-! ### Claim C7: at most one winning marker on reachable boards -/

theorem line_bounds : ∀ line ∈ WINNING_LINE_POSITIONS, ∀ p ∈ line, p.1 ≤ 2 ∧ p.2 ≤ 2 := by
  decide

theorem wins_set {b : Board} {i j : Nat} {cur m : Marker} (hi : i ≤ 2) (hj : j ≤ 2)
    (h : wins (b.set i j (some cur)) m = true) : wins b m = true ∨ m = cur := by
  rw [wins, List.any_eq_true] at h
  obtain ⟨line, hline, hall⟩ := h
  rw [List.all_eq_true] at hall
  by_cases hmem : (i, j) ∈ line
  · right
    have hcell := hall (i, j) hmem
    rw [show ((i, j) : Move).1 = i from rfl, show ((i, j) : Move).2 = j from rfl,
      get_set_same b hi hj] at hcell
    have : some cur = some m := by simpa using hcell
    exact (Option.some_inj.mp this).symm
  · left
    rw [wins, List.any_eq_true]
    refine ⟨line, hline, List.all_eq_true.mpr (fun p hp => ?_)⟩
    have hb := line_bounds line hline p hp
    have hcell := hall p hp
    have hne : ((p.1, p.2) : Move) ≠ (i, j) := by
      intro heq
      have hpe : p = (i, j) := heq
      exact hmem (hpe ▸ hp)
    rwa [get_set_ne b (some cur) hi hj hb.1 hb.2 hne] at hcell

theorem scanLines_eq_none_imp : ∀ (lines : List (List Move)) (b : Board),
    scanLines b lines = none → ∀ line ∈ lines, ∀ v1 v2 v3 : Cell,
      line.map (fun p => b.get p.1 p.2) = [v1, v2, v3] →
      ¬(v1 = v2 ∧ v2 = v3 ∧ v1 ≠ none)
  | [], _, _, line, hline => by simp at hline
  | l :: rest, b, h, line, hline => by
    intro v1 v2 v3 hmap hcond
    rw [scanLines] at h
    rcases List.mem_cons.mp hline with rfl | hrest
    · simp only [hmap] at h
      rw [if_pos hcond] at h
      exact hcond.2.2 h
    · have hrec : scanLines b rest = none := by
        rcases hshape : l.map (fun p => b.get p.1 p.2) with _ | ⟨a1, rest1⟩
        · simpa [hshape] using h
        · rcases rest1 with _ | ⟨a2, rest2⟩
          · simpa [hshape] using h
          · rcases rest2 with _ | ⟨a3, rest3⟩
            · simpa [hshape] using h
            · rcases rest3 with _ | ⟨a4, rest4⟩
              · simp only [hshape] at h
                by_cases hcnd : a1 = a2 ∧ a2 = a3 ∧ a1 ≠ none
                · rw [if_pos hcnd] at h
                  exact absurd h hcnd.2.2
                · rwa [if_neg hcnd] at h
              · simpa [hshape] using h
      exact scanLines_eq_none_imp rest b hrec line hrest v1 v2 v3 hmap hcond

theorem get_winner_ne_none_of_wins {b : Board} {m : Marker} (h : wins b m = true) :
    get_winner b ≠ none := by
  intro hnone
  rw [wins, List.any_eq_true] at h
  obtain ⟨line, hline, hall⟩ := h
  rw [List.all_eq_true] at hall
  have himp := scanLines_eq_none_imp WINNING_LINE_POSITIONS b hnone line hline
  fin_cases hline <;>
  · simp only [List.mem_cons, List.mem_singleton, forall_eq_or_imp, forall_eq,
      beq_iff_eq] at hall
    obtain ⟨h1, h2, h3⟩ := hall
    exact himp (some m) (some m) (some m) (by simp [h1, h2, h3]) (by simp)

theorem wins_eq_false_of_winner_none {b : Board} (h : get_winner b = none) (m : Marker) :
    wins b m = false := by
  cases hwb : wins b m with
  | false => rfl
  | true => exact absurd h (get_winner_ne_none_of_wins hwb)

theorem wins_emptyBoard_false (m : Marker) : wins emptyBoard m = false := by
  cases m <;> decide

/-- C7 counterexample: the claim's reachability has no stopping condition,
so play may continue past X's win: after X (0,0), O (1,0), X (0,1),
O (1,1), X (0,2) — X completes row 0 — the legal alternating move O (1,2)
completes row 1, and both markers occupy full winning lines. -/
theorem claim_C7_counterexample :
    LegalPlay doubleWinBoard Marker.X ∧ wins doubleWinBoard Marker.X = true ∧
      wins doubleWinBoard Marker.O = true ∧ Marker.X ≠ Marker.O := by
  refine ⟨?_, by decide, by decide, by decide⟩
  exact LegalPlay.move 1 2
    (LegalPlay.move 0 2
      (LegalPlay.move 1 1
        (LegalPlay.move 0 1
          (LegalPlay.move 1 0
            (LegalPlay.move 0 0 LegalPlay.start (by decide) (by decide) (by decide))
            (by decide) (by decide) (by decide))
          (by decide) (by decide) (by decide))
        (by decide) (by decide) (by decide))
      (by decide) (by decide) (by decide))
    (by decide) (by decide) (by decide)

/-- C7 amended: for boards reachable through legal alternating play that
stops as soon as a winning line exists (no move is made on an already-won
board), at most one marker occupies a complete winning line, so the
winner is independent of line-scan order. -/
theorem claim_C7_amended {b : Board} {cur : Marker} (h : LegalPlayStop b cur) :
    ∀ m m' : Marker, wins b m = true → wins b m' = true → m = m' := by
  induction h with
  | start =>
    intro m m' hm _
    exact absurd hm (by simp [wins_emptyBoard_false])
  | move i j hplay hw hi hj he ih =>
    intro m m' hm hm'
    rcases wins_set hi hj hm with hbm | rfl
    · exact absurd hbm (by simp [wins_eq_false_of_winner_none hw])
    · rcases wins_set hi hj hm' with hbm' | rfl
      · exact absurd hbm' (by simp [wins_eq_false_of_winner_none hw])
      · rfl

/-- Witness for C7 (amended): a board reached under stopping play where X
has a line; the theorem applied there yields X = X. -/
theorem claim_C7_witness :
    wins xWonBoard Marker.X = true ∧ Marker.X = Marker.X :=
  ⟨by decide,
   claim_C7_amended
     (LegalPlayStop.move 0 2
       (LegalPlayStop.move 1 1
         (LegalPlayStop.move 0 1
           (LegalPlayStop.move 1 0
             (LegalPlayStop.move 0 0 LegalPlayStop.start (by decide) (by decide) (by decide)
               (by decide))
             (by decide) (by decide) (by decide) (by decide))
           (by decide) (by decide) (by decide) (by decide))
         (by decide) (by decide) (by decide) (by decide))
       (by decide) (by decide) (by decide) (by decide))
     Marker.X Marker.X (by decide) (by decide)⟩

end TicTacToe
